import Mathlib

/-!
Verification development for newspaper's output formatting module
(`newspaper/outputformatters.py`).

The module converts a pre-selected DOM subtree (the "top node") plus an
optional title into article body text.  We shallowly embed the data model
and the operations: Python strings become `List Char` (so that Python's
`None`/`''` falsiness is uniformly `[]`), DOM elements become a nested
inductive tree following the spec's data model (tag, attributes, direct
text, ordered children; tail text is not part of the spec's data model),
and fallible code returns `Except`.

Functions whose bodies live outside the embedded module (the tree access
facade, `newspaper.text.innerTrim`, stdlib `html.unescape`, `float`) are
modelled from the spec, and say so in their doc comments.
-/

/-- Python strings, as lists of characters.  The empty list doubles as
Python's `None` for text fields: every use in the embedded module
(`if child.text`, `node.text or ''`) treats `None` and `''` alike. -/
abbrev Str := List Char

/-- Whitespace characters recognised by Python's `str.strip()` /
`str.split()` (ASCII subset; the module never relies on exotic unicode
whitespace). -/
def isPySpace (c : Char) : Bool :=
  c == ' ' || c == '\t' || c == '\n' || c == '\r' || c == '\x0b' || c == '\x0c'

/-- Python `str.strip()`: drop leading and trailing whitespace. -/
def pyStrip (s : Str) : Str :=
  ((s.dropWhile isPySpace).reverse.dropWhile isPySpace).reverse

/-- Helper for `pySplitWs`: accumulates the current word (reversed). -/
def splitWsAux : Str → Str → List Str
  | acc, [] => if acc = [] then [] else [acc.reverse]
  | acc, c :: rest =>
    if isPySpace c then
      if acc = [] then splitWsAux [] rest else acc.reverse :: splitWsAux [] rest
    else
      splitWsAux (c :: acc) rest

/-- Python `str.split()` with no argument: split on whitespace runs,
dropping empty pieces.  Also used for lxml's `node.classes` (the
whitespace-split "class" attribute). -/
def pySplitWs (s : Str) : List Str := splitWsAux [] s

/-- Python `sep.join(parts)`. -/
def joinSep (sep : Str) : List Str → Str
  | [] => []
  | [x] => x
  | x :: xs => x ++ sep ++ joinSep sep xs

/-- Modelled from the spec: whitespace normalization (the body of
`newspaper.text.innerTrim` is not part of the embedded module) —
"collapse internal whitespace runs to single spaces, trim ends". -/
def innerTrim (s : Str) : Str := joinSep [' '] (pySplitWs s)

/-- Modelled from the spec: HTML entity unescaping ("unescape HTML
entities", stdlib `html.unescape`); a minimal named-entity set suffices
for the embedded module, whose behaviour never depends on which
entities exist. -/
def unescape : Str → Str
  | [] => []
  | '&' :: 'a' :: 'm' :: 'p' :: ';' :: rest => '&' :: unescape rest
  | '&' :: 'l' :: 't' :: ';' :: rest => '<' :: unescape rest
  | '&' :: 'g' :: 't' :: ';' :: rest => '>' :: unescape rest
  | '&' :: 'q' :: 'u' :: 'o' :: 't' :: ';' :: rest => '"' :: unescape rest
  | c :: rest => c :: unescape rest

/-- Substring search (Python `re.search` on a literal alternative, and
`in` on strings): does `pat` occur contiguously inside `s`? -/
def containsSub (pat : Str) (s : Str) : Bool :=
  pat.isPrefixOf s ||
    match s with
    | [] => false
    | _ :: rest => containsSub pat rest

/-- The literal two-character newline-marker sentinel `r'\n'`
(a backslash followed by the letter n — not a real line break). -/
def nlMarker : Str := "\\n".data

/-- Python `text.split(r'\n')`: split on the two-character sentinel.
Parts never contain the separator; adjacent separators yield empty
parts; the result is always nonempty. -/
def splitNL : Str → List Str
  | [] => [[]]
  | '\\' :: 'n' :: rest => [] :: splitNL rest
  | c :: rest =>
    match splitNL rest with
    | [] => [[c]]
    | p :: ps => (c :: p) :: ps

/-- Does a string contain the newline-marker sentinel? -/
def containsNL (s : Str) : Bool := containsSub nlMarker s

/-- Numeric value of a digit string (most significant first). -/
def natOfDigits (s : Str) : Nat :=
  s.foldl (fun acc c => 10 * acc + (c.toNat - '0'.toNat)) 0

/-- Unsigned decimal literal: digits with an optional fractional part. -/
def parseUnsigned (s : Str) : Option ℚ :=
  let ip := s.takeWhile Char.isDigit
  let rest := s.dropWhile Char.isDigit
  match rest with
  | [] => if ip = [] then none else some (natOfDigits ip : ℚ)
  | '.' :: fp =>
    if fp.all Char.isDigit ∧ (ip ≠ [] ∨ fp ≠ []) then
      some ((natOfDigits ip : ℚ) + (natOfDigits fp : ℚ) / (10 : ℚ) ^ fp.length)
    else none
  | _ => none

/-- Modelled from the spec: "parse as a number" (Python's builtin
`float`).  Decimal literals with optional sign and an optional
fractional part are parsed exactly (as rationals); anything else —
e.g. `"abc"` — fails, which models `float` raising `ValueError`.
Exotic accepted spellings of `float` (exponents, `inf`, `nan`,
underscores) are outside the values this module ever meets and are
conservatively rejected. -/
def parseScore (s : Str) : Option ℚ :=
  match pyStrip s with
  | '-' :: r => (parseUnsigned r).map (fun q => -q)
  | '+' :: r => parseUnsigned r
  | r => parseUnsigned r

/-- Is an `Except` value a success? -/
def exceptOk {ε α : Type} : Except ε α → Bool
  | .ok _ => true
  | .error _ => false

/-! ## The DOM data model

Following the spec's data model: a node has a tag, attributes, direct
text (the text appearing before any child; `[]` doubles for lxml's
`None`), and ordered children.  The parent reference is non-owning and
used only for lookup, so it is passed separately where a function needs
it rather than stored. -/

inductive HtmlNode : Type where
| mk : Str → List (Str × Str) → Str → List HtmlNode → HtmlNode

def HtmlNode.tag : HtmlNode → Str
  | .mk t _ _ _ => t

def HtmlNode.attrs : HtmlNode → List (Str × Str)
  | .mk _ a _ _ => a

def HtmlNode.text : HtmlNode → Str
  | .mk _ _ x _ => x

def HtmlNode.children : HtmlNode → List HtmlNode
  | .mk _ _ _ c => c

mutual

def nodeSize : HtmlNode → Nat
  | .mk _ _ _ cs => 1 + listSize cs

def listSize : List HtmlNode → Nat
  | [] => 0
  | c :: cs => nodeSize c + listSize cs

end

mutual

/-- Document-order (pre-order) traversal: the node itself, then every
descendant (lxml's `node.iter()`). -/
def iterNodes : HtmlNode → List HtmlNode
  | .mk t a x cs => .mk t a x cs :: iterList cs

def iterList : List HtmlNode → List HtmlNode
  | [] => []
  | c :: cs => iterNodes c ++ iterList cs

end

/-- Attribute lookup (lxml `dict(node.items()).get(k)` /
`node.get(k)`): first binding wins. -/
def getAttr (n : HtmlNode) (k : Str) : Option Str :=
  (n.attrs.find? (fun p => p.1 = k)).map Prod.snd

/-- lxml `node.classes`: the whitespace-split "class" attribute. -/
def classesOf (n : HtmlNode) : List Str :=
  pySplitWs ((getAttr n ("class".data)).getD [])

/-- Structural induction principle following the child relation. -/
theorem node_ind (P : HtmlNode → Prop)
    (h : ∀ n : HtmlNode, (∀ c ∈ n.children, P c) → P n) : ∀ n, P n := by
  have hsize : ∀ (cs : List HtmlNode), ∀ c ∈ cs, nodeSize c ≤ listSize cs := by
    intro cs
    induction cs with
    | nil => intro c hc; simp at hc
    | cons d ds ihd =>
      intro c hc
      rcases List.mem_cons.mp hc with h1 | h2
      · subst h1; simp only [listSize]; omega
      · have := ihd c h2; simp only [listSize]; omega
  have key : ∀ k (n : HtmlNode), nodeSize n ≤ k → P n := by
    intro k
    induction k with
    | zero =>
      intro n hn
      cases n with
      | mk t a x cs => simp [nodeSize] at hn
    | succ k ih =>
      intro n hn
      apply h
      intro c hc
      apply ih
      have hlt : nodeSize c < nodeSize n := by
        cases n with
        | mk t a x cs =>
          simp only [HtmlNode.children] at hc
          have := hsize cs c hc
          simp [nodeSize]; omega
      omega
  intro n
  exact key (nodeSize n) n (le_refl _)

/-! ## NodeTextExclusion

Direct translation of the `NodeTextExclusion` class: fixed constant sets
and six per-node predicates, combined in order with short-circuit. -/

def EXCLUDED_TAGS : List Str := ["figure".data, "figcaption".data]

def AD_CLASSES : List Str :=
  ["js_ad-mobile-dynamic".data, "js_ad-dynamic".data,
   "ad-mobile-dynamic".data, "movable-ad".data]

def OBJECT_DESCRIPTIONS : List Str :=
  ["bold".data, "detailImageDesc".data, "credits".data]

def PAGE_NAVIGATION : List Str :=
  ["« previous post | next post »".data, "prevnext".data]

def IGNORED_CLASSES : List Str :=
  ["audioplayer_container".data, "postfeedback".data]

/-- `_has_ignored_class`: nonempty intersection of the class set with
`IGNORED_CLASSES`. -/
def has_ignored_class (n : HtmlNode) : Bool :=
  (classesOf n).any (fun c => c ∈ IGNORED_CLASSES)

/-- `_has_ads`: a div whose class set meets `AD_CLASSES`. -/
def has_ads (n : HtmlNode) : Bool :=
  n.tag = "div".data && (classesOf n).any (fun c => c ∈ AD_CLASSES)

/-- `_looks_like_object_description`: a span whose class set meets
`OBJECT_DESCRIPTIONS`. -/
def looks_like_object_description (n : HtmlNode) : Bool :=
  n.tag = "span".data && (classesOf n).any (fun c => c ∈ OBJECT_DESCRIPTIONS)

/-- `_looks_like_page_navigation`: trimmed direct text in
`PAGE_NAVIGATION`, or for a `p` tag an id attribute in
`PAGE_NAVIGATION`. -/
def looks_like_page_navigation (n : HtmlNode) : Bool :=
  pyStrip n.text ∈ PAGE_NAVIGATION ||
    (n.tag = "p".data &&
      match getAttr n ("id".data) with
      | some v => v ∈ PAGE_NAVIGATION
      | none => false)

/-- `_is_tag_excluded`: own tag, or the parent's tag, in
`EXCLUDED_TAGS`.  `if parent and ...` tests lxml truthiness of the
parent element (it has children); for a parent obtained by `getparent()`
this is equivalent to mere existence, since such a parent contains the
node itself. -/
def is_tag_excluded (n : HtmlNode) (parent : Option HtmlNode) : Bool :=
  n.tag ∈ EXCLUDED_TAGS ||
    match parent with
    | some p => !p.children.isEmpty && p.tag ∈ EXCLUDED_TAGS
    | none => false

/-- `_ignored_by_content`: `IGNORED_TEXT.search(node.text)` with the
pattern `Permalink|(Share link)` — a substring search for either
literal. -/
def ignored_by_content (n : HtmlNode) : Bool :=
  if n.text ≠ [] then
    containsSub ("Permalink".data) n.text || containsSub ("Share link".data) n.text
  else false

/-- `NodeTextExclusion.is_excluded`: the six filters in their fixed
order with short-circuit on first match. -/
def is_excluded (n : HtmlNode) (parent : Option HtmlNode) : Bool :=
  is_tag_excluded n parent ||
  has_ads n ||
  looks_like_object_description n ||
  looks_like_page_navigation n ||
  has_ignored_class n ||
  ignored_by_content n

/-! ## NodeTextExtractor -/

mutual

/-- `node.iter()` paired with each visited node's parent (the starting
node's parent is supplied by the caller; `getparent()` is a non-owning
upward reference). -/
def iterWithParent (parent : Option HtmlNode) : HtmlNode → List (Option HtmlNode × HtmlNode)
  | .mk t a x cs => (parent, .mk t a x cs) :: iterListWithParent (.mk t a x cs) cs

def iterListWithParent (p : HtmlNode) : List HtmlNode → List (Option HtmlNode × HtmlNode)
  | [] => []
  | c :: cs => iterWithParent (some p) c ++ iterListWithParent p cs

end

/-- Does a split part survive the title filter?
(`if title and part == title: continue` — skipped only when the title is
truthy and equal to the part.) -/
def keepsPart (title : Option Str) (part : Str) : Bool :=
  match title with
  | some tt => !(tt ≠ [] && part = tt)
  | none => true

/-- `NodeTextExtractor.extract_text`, a generator: its observable
behaviour is the (finite) sequence of yielded fragments.  An excluded
starting node yields nothing (`return None` inside a generator merely
stops it).  Otherwise every visited node is re-tested individually;
surviving nodes with direct text are normalized
(`innerTrim(unescape(...))`), split on the newline-marker sentinel,
empty parts dropped, parts equal to a truthy title dropped. -/
def extract_text (node : HtmlNode) (parent : Option HtmlNode) (title : Option Str) : List Str :=
  if is_excluded node parent then []
  else
    let filtered_nodes :=
      (iterWithParent parent node).filter (fun pc => !is_excluded pc.2 pc.1)
    let text_elements :=
      (filtered_nodes.filter (fun pc => pc.2.text ≠ [])).map
        (fun pc => innerTrim (unescape pc.2.text))
    text_elements.flatMap
      (fun t => (((splitNL t).filter (fun p => p ≠ [])).filter (keepsPart title)))

/-! ## Tree access facade operations

The facade (`self.parser`) is an external collaborator per the spec;
operations used by the pipeline are modelled from the spec's
description of the facade ("tag/attribute/text/children reads, detach,
unwrap-splice, subtree serialization; stable document-order
iteration"). -/

mutual

/-- All direct-text chunks of a subtree, in document order (the
facade's `itertext`, restricted to the spec's tail-less data model). -/
def collectTexts : HtmlNode → List Str
  | .mk _ _ x cs => (if x = [] then [] else [x]) ++ collectTextsList cs

def collectTextsList : List HtmlNode → List Str
  | [] => []
  | c :: cs => collectTexts c ++ collectTextsList cs

end

/-- Modelled from the spec: the facade's accumulated text of a subtree
("accumulated text"; `innerTrim(' '.join(node.itertext()).strip())`). -/
def getText (n : HtmlNode) : Str :=
  innerTrim (joinSep [' '] (collectTexts n))

mutual

/-- Apply a node-local rewrite everywhere in the subtree (document
order; comprises the matched-element updates of `add_newline_to_br`,
whose mutation never changes the tree's shape). -/
def mapTree (f : HtmlNode → HtmlNode) : HtmlNode → HtmlNode
  | .mk t a x cs =>
    match f (.mk t a x cs) with
    | .mk t2 a2 x2 _ => .mk t2 a2 x2 (mapTreeList f cs)

def mapTreeList (f : HtmlNode → HtmlNode) : List HtmlNode → List HtmlNode
  | [] => []
  | c :: cs => mapTree f c :: mapTreeList f cs

end

/-- `OutputFormatter.add_newline_to_br`: set every `br` element's text
to the newline-marker sentinel.  The facade's element query is
descendant-or-self, and the rewrite is shape-preserving, so the
snapshot loop coincides with a structural map. -/
def add_newline_to_br (t : HtmlNode) : HtmlNode :=
  mapTree (fun n =>
    if n.tag = "br".data then .mk n.tag n.attrs nlMarker n.children else n) t

mutual

/-- Modelled from the spec: unwrap-splice for `stripTags`
("replace it with a splice of its own children/text at its former
position").  Strips inside each child first, then splices children
whose (post-strip) tag matches.  In the spec's tail-less data model a
spliced element's direct text can only stay visible while no element
precedes it — it merges into the accumulated leading text returned to
the parent; later spliced text has no `.text` field to live in (it
occupies tail positions in a tailed DOM) and is dropped.  The root is
never stripped.  No theorem below depends on the text-placement
choice; claims only use that stripping is the identity on trees
containing none of the stripped tags. -/
def stripSeq (tags : List Str) : List HtmlNode → (Str × List HtmlNode)
  | [] => ([], [])
  | c :: rest =>
    match stripNode tags c, stripSeq tags rest with
    | .mk t2 a2 x2 cs2, (t2ext, rest2) =>
      if t2 ∈ tags then
        match cs2 with
        | [] => (x2 ++ t2ext, rest2)
        | _ => (x2, cs2 ++ rest2)
      else ([], .mk t2 a2 x2 cs2 :: rest2)

def stripNode (tags : List Str) : HtmlNode → HtmlNode
  | .mk t a x cs =>
    match stripSeq tags cs with
    | (ext, cs2) => .mk t a (x ++ ext) cs2

end

/-- `OutputFormatter.links_to_text`: `stripTags(top, 'a')`. -/
def links_to_text (t : HtmlNode) : HtmlNode := stripNode ["a".data] t

/-- `OutputFormatter.replace_with_text`:
`stripTags(top, 'b', 'strong', 'i', 'br', 'sup')`. -/
def replace_with_text (t : HtmlNode) : HtmlNode :=
  stripNode ["b".data, "strong".data, "i".data, "br".data, "sup".data] t

/-- Node at a child-index path (facade lookup used to replay snapshot
node lists against the evolving tree). -/
def getPath : HtmlNode → List Nat → Option HtmlNode
  | n, [] => some n
  | n, i :: p =>
    match n.children.get? i with
    | some c => getPath c p
    | none => none

/-- Replace the node at a child-index path (identity when the path is
dangling). -/
def setPath : HtmlNode → List Nat → HtmlNode → HtmlNode
  | _, [], v => v
  | .mk t a x cs, i :: p, v =>
    match cs.get? i with
    | some c => .mk t a x (cs.set i (setPath c p v))
    | none => .mk t a x cs

mutual

/-- Paths (in document order) of all descendant-or-self nodes with the
given tag — the facade's `getElementsByTag` query. -/
def pathsWithTag (tag : Str) : HtmlNode → List (List Nat)
  | .mk t _ _ cs =>
    (if t = tag then [[]] else []) ++ pathsWithTagList tag 0 cs

def pathsWithTagList (tag : Str) (i : Nat) : List HtmlNode → List (List Nat)
  | [] => []
  | c :: cs =>
    (pathsWithTag tag c).map (fun p => i :: p) ++ pathsWithTagList tag (i + 1) cs

end

/-- `OutputFormatter.add_newline_to_li`: for every `ul` (snapshot list,
document order), for all of its `li` descendants except the last
(snapshot per `ul`): set the item's text to its accumulated text
followed by the newline marker, then drop all of the item's children.
The imperative loop mutates nodes by identity; here identities are
replayed as paths: a dangling path is a node that an earlier mutation
detached, whose in-place mutation no longer affects the tree — skipping
it leaves the same tree.  No sibling is ever removed during this pass
(only children cleared), so surviving paths keep addressing the same
nodes. -/
def add_newline_to_li (t : HtmlNode) : HtmlNode :=
  (pathsWithTag ("ul".data) t).foldl (fun acc u =>
    match getPath acc u with
    | none => acc
    | some un =>
      (((pathsWithTag ("li".data) un).map (fun p => u ++ p)).dropLast).foldl
        (fun acc2 l =>
          match getPath acc2 l with
          | none => acc2
          | some ln => setPath acc2 l (.mk ln.tag ln.attrs (getText ln ++ nlMarker) []))
        acc) t

/-- Is a node flagged for score pruning: it carries a `gravityScore`
attribute whose value — empty degrading to `0` — parses below 1?
(On the no-error path every non-empty value parses, so the `getD`
default is never consulted.) -/
def gravityFlagged (n : HtmlNode) : Bool :=
  match getAttr n ("gravityScore".data) with
  | none => false
  | some v => (if v = [] then 0 else (parseScore v).getD 0) < 1

/-- The `gravityScore` attribute values in the snapshot
`css_select(top, "*[gravityScore]")` (descendant-or-self, document
order), each paired with whether it sits on the top node itself. -/
def gravityValues (t : HtmlNode) : List (Bool × Str) :=
  (iterWithParent none t).filterMap (fun pc =>
    (getAttr pc.2 ("gravityScore".data)).map (fun v => (pc.1.isNone, v)))

/-- First error raised while the loop of `remove_negativescores_nodes`
walks the snapshot: `float(score)` raises `ValueError` on a non-empty
unparsable value, and a flagged top node itself raises
`AttributeError` (`item.getparent()` is `None`). -/
def gravityError : List (Bool × Str) → Option Str
  | [] => none
  | (isTop, v) :: rest =>
    if v = [] then
      if isTop then some ("AttributeError".data) else gravityError rest
    else
      match parseScore v with
      | none => some ("ValueError".data)
      | some q =>
        if q < 1 ∧ isTop then some ("AttributeError".data) else gravityError rest

mutual

/-- Recursive pruning of flagged subtrees: drop every child whose score
is below 1, together with its whole subtree, and recurse into the kept
children. -/
def pruneGravity : HtmlNode → HtmlNode
  | .mk t a x cs => .mk t a x (pruneGravityList cs)

def pruneGravityList : List HtmlNode → List HtmlNode
  | [] => []
  | c :: cs =>
    if gravityFlagged c then pruneGravityList cs
    else pruneGravity c :: pruneGravityList cs

end

/-- `OutputFormatter.remove_negativescores_nodes`.  The loop walks the
document-order snapshot once; an ancestor removed earlier keeps its
subtree, so removing a later flagged descendant from its (unchanged)
parent is a no-op on the main tree — the surviving tree is exactly the
recursive pruning of flagged subtrees.  A raised exception abandons the
tree, modelled as `Except.error`. -/
def remove_negativescores_nodes (t : HtmlNode) : Except Str HtmlNode :=
  match gravityError (gravityValues t) with
  | some e => .error e
  | none => .ok (pruneGravity t)

/-- Does the subtree contain (descendant-or-self) an element with the
given tag — `len(getElementsByTag(el, tag=...)) != 0`? -/
def hasTagInside (tag : Str) (n : HtmlNode) : Bool :=
  (iterNodes n).any (fun m => m.tag = tag)

/-- Removal condition of `remove_empty_tags` for a node in its current
state: `(tag != 'br' or text != '\r') and not text and no object
descendant and no embed descendant` (with `text = getText(el)` and the
carriage-return sentinel the two-character literal backslash-r). -/
def emptyTagRemovable (n : HtmlNode) : Bool :=
  (!(n.tag = "br".data) || !(getText n = "\\r".data)) &&
  getText n = [] &&
  !hasTagInside ("object".data) n &&
  !hasTagInside ("embed".data) n

mutual

/-- Bottom-up sweep of `remove_empty_tags`: reverse document order
processes every descendant before its parent, so each node is tested
after its own subtree has been emptied; a removed subtree carries no
visible text (its accumulated text is whitespace-only), so sibling
order is immaterial and the reverse-order loop coincides with this
recursion. -/
def retNode : HtmlNode → Option HtmlNode
  | .mk t a x cs =>
    let cs2 := retList cs
    if emptyTagRemovable (.mk t a x cs2) then none else some (.mk t a x cs2)

def retList : List HtmlNode → List HtmlNode
  | [] => []
  | c :: cs =>
    match retNode c with
    | none => retList cs
    | some c2 => c2 :: retList cs

end

/-- `OutputFormatter.remove_empty_tags`.  The snapshot is
descendant-or-self, but removing the parentless top node is a
defensive no-op in the facade, so only descendants are swept. -/
def remove_empty_tags : HtmlNode → HtmlNode
  | .mk t a x cs => .mk t a x (retList cs)

mutual

/-- `get_depth` from `remove_trailing_media_div`: a childless node has
its own depth (starting at 1), otherwise the maximum over children of
their depth one deeper, folded from 0. -/
def get_depth : HtmlNode → Nat → Nat
  | .mk _ _ _ cs, depth =>
    if cs.isEmpty then depth else get_depthList cs (depth + 1)

def get_depthList : List HtmlNode → Nat → Nat
  | [], _ => 0
  | c :: cs, d => max (get_depth c d) (get_depthList cs d)

end

/-- `OutputFormatter.remove_trailing_media_div`: skip when the top node
has fewer than 3 direct children; otherwise remove the last direct
child exactly when its subtree depth is at least 2. -/
def remove_trailing_media_div (t : HtmlNode) : HtmlNode :=
  if t.children.length < 3 then t
  else
    match t.children.getLast? with
    | none => t
    | some last =>
      if 2 ≤ get_depth last 1 then .mk t.tag t.attrs t.text t.children.dropLast
      else t

mutual

/-- Modelled from the spec: subtree serialization for the optional HTML
capture ("serialize the current tree to a string now"). -/
def serializeNode : HtmlNode → Str
  | .mk t a x cs =>
    ['<'] ++ t ++
      (a.flatMap (fun kv => [' '] ++ kv.1 ++ ['=', '"'] ++ kv.2 ++ ['"'])) ++
      ['>'] ++ x ++ serializeList cs ++ ['<', '/'] ++ t ++ ['>']

def serializeList : List HtmlNode → Str
  | [] => []
  | c :: cs => serializeNode c ++ serializeList cs

end

/-- `OutputFormatter.convert_to_html` as the spec describes it:
serialize the current working tree (a `None` tree serializes to
nothing under a defensively-implemented facade). -/
def convert_to_html : Option HtmlNode → Str
  | none => []
  | some t => serializeNode t

/-- The flat fragment sequence of `convert_to_text`: each direct child
of the top node run through the extractor (its parent is the top node),
concatenated in order.  `filter(None, ...)` on the stream of generator
objects discards nothing — generator objects are always truthy — so it
is not reflected here. -/
def convertFragments (t : HtmlNode) (title : Option Str) : List Str :=
  (t.children.map (fun n => extract_text n (some t) title)).flatten

/-- `OutputFormatter.convert_to_text`: peek the first fragment; keep it
in `elements` only if it is truthy and its whitespace word count is not
1; join `elements` and the remaining fragments with a blank line.
Iterating a `None` top node (`for node in self.get_top_node()`) raises
`TypeError`. -/
def convert_to_text (top : Option HtmlNode) (title : Option Str) : Except Str Str :=
  match top with
  | none => .error ("TypeError".data)
  | some t =>
    match convertFragments t title with
    | [] => .ok (joinSep ("\n\n".data) [])
    | first_element :: flattened_rest =>
      let elements :=
        if first_element ≠ [] ∧ (pySplitWs first_element).length ≠ 1 then
          [first_element]
        else []
      .ok (joinSep ("\n\n".data) (elements ++ flattened_rest))

/-- The mutating passes that follow score pruning and the HTML capture,
in their fixed order (steps 3–8 of the cleanup pipeline). -/
def cleanup_rest (t : HtmlNode) : HtmlNode :=
  remove_trailing_media_div
    (remove_empty_tags
      (replace_with_text
        (add_newline_to_li
          (add_newline_to_br
            (links_to_text t)))))

/-- The full cleanup pipeline, steps 1–8, on the tree (the HTML capture
of step 2 reads but never mutates). -/
def cleanup_pipeline (t : HtmlNode) : Except Str HtmlNode :=
  (remove_negativescores_nodes t).map cleanup_rest

/-- `OutputFormatter.get_formatted`: score pruning, optional HTML
capture, the remaining pipeline passes, then text conversion.  An
absent top node flows through the defensively-implemented facade
(spec: already-removed or unreachable nodes are no-ops, not faults)
until `convert_to_text` iterates it.  The unused language/stopword
configuration is not modelled. -/
def get_formatted (top : Option HtmlNode) (title : Option Str)
    (keep_article_html : Bool) : Except Str (Str × Str) :=
  match (match top with
         | none => Except.ok none
         | some t => (remove_negativescores_nodes t).map some) with
  | .error e => .error e
  | .ok pruned =>
    let html : Str := if keep_article_html then convert_to_html pruned else []
    match convert_to_text (pruned.map cleanup_rest) title with
    | .error e => .error e
    | .ok text => .ok (text, html)

/-! ## General lemmas about the string model -/

theorem splitNL_ne_nil (s : Str) : splitNL s ≠ [] := by
  induction s using splitNL.induct <;> simp only [splitNL] <;> (try split) <;> simp_all

theorem splitNL_head (s : Str) :
    ∃ p ps, splitNL s = p :: ps ∧ (p = [] ∨ p.head? = s.head?) := by
  induction s using splitNL.induct with
  | case1 => exact ⟨[], [], rfl, Or.inl rfl⟩
  | case2 rest ih => exact ⟨[], splitNL rest, rfl, Or.inl rfl⟩
  | case3 c rest hne h ih => exact absurd h (splitNL_ne_nil rest)
  | case4 c rest hne p ps hps ih =>
    refine ⟨c :: p, ps, ?_, Or.inr rfl⟩
    rw [splitNL.eq_3 c rest hne, hps]

theorem containsNL_nil : containsNL [] = false := rfl

theorem containsNL_cons (a : Char) (r : Str) :
    containsNL (a :: r) = (nlMarker.isPrefixOf (a :: r) || containsNL r) := by
  rw [containsNL, containsSub, containsNL]

/-- No part produced by splitting on the newline marker contains the
newline marker. -/
theorem splitNL_no_marker (s : Str) : ∀ p ∈ splitNL s, containsNL p = false := by
  induction s using splitNL.induct with
  | case1 =>
    intro p hp
    simp only [splitNL, List.mem_singleton] at hp
    subst hp; rfl
  | case2 rest ih =>
    intro p hp
    simp only [splitNL, List.mem_cons] at hp
    rcases hp with h | h
    · subst h; rfl
    · exact ih p h
  | case3 c rest hne h ih => exact absurd h (splitNL_ne_nil rest)
  | case4 c rest hne p ps hps ih =>
    intro q hq
    rw [splitNL.eq_3 c rest hne, hps] at hq
    rcases List.mem_cons.mp hq with h | h
    · subst h
      rw [containsNL_cons]
      have hp : containsNL p = false := ih p (by rw [hps]; exact List.mem_cons_self _ _)
      rw [hp]
      have hpre : nlMarker.isPrefixOf (c :: p) = false := by
        by_cases hc : c = '\\'
        · subst hc
          rcases splitNL_head rest with ⟨p', ps', hps', hh⟩
          rw [hps] at hps'
          cases hps'
          rcases hh with hnil | hhead
          · subst hnil
            rfl
          · cases p with
            | nil => rfl
            | cons b bs =>
              by_cases hb : b = 'n'
              · subst hb
                cases rest with
                | nil => simp at hhead
                | cons r rs =>
                  simp only [List.head?] at hhead
                  have hr : r = 'n' := by
                    injection hhead with h1
                    exact h1.symm
                  exact (hne rs rfl (by rw [hr])).elim
              · show (('\\' == '\\') && (('n' == b) && List.isPrefixOf [] bs)) = false
                simp [hb]
                intro h
                exact absurd h.symm hb
        · show ((('\\' : Char) == c) && _) = false
          simp [hc]
          intro h
          exact absurd h.symm hc
      rw [hpre]
      rfl
    · exact ih q (by rw [hps]; exact List.mem_cons_of_mem _ h)

/-- Every fragment yielded by the extractor is a part of some sentinel
split. -/
theorem extract_text_mem_splitNL (node : HtmlNode) (parent : Option HtmlNode)
    (title : Option Str) (part : Str) (h : part ∈ extract_text node parent title) :
    ∃ t, part ∈ splitNL t := by
  rw [extract_text] at h
  by_cases hex : is_excluded node parent
  · simp [hex] at h
  · simp only [hex, if_false] at h
    rcases List.mem_flatMap.mp h with ⟨t, _, hpart⟩
    exact ⟨t, (List.mem_filter.mp (List.mem_filter.mp hpart).1).1⟩

/-! ## Concrete example trees -/

/-- Wrap a node in a plain div parent (so parent lookups are realistic). -/
def bodyOf (n : HtmlNode) : HtmlNode := .mk ("div".data) [] [] [n]

/-- A paragraph whose direct text has whitespace adjacent to the
newline marker. -/
def pSpaceMarker : HtmlNode := .mk ("p".data) [] ("  a  \\n b".data) []

/-- A paragraph whose direct text has a whitespace-only span between
two newline markers. -/
def pSpaceBetween : HtmlNode := .mk ("p".data) [] ("a\\n \\nb".data) []

/-- An excluded node: a figure with caption text. -/
def figureNode : HtmlNode := .mk ("figure".data) [] ("caption text".data) []

/-- A node with an empty subtree: no direct text, no children. -/
def emptyPara : HtmlNode := .mk ("p".data) [] [] []

/-- A div whose trimmed text is the second member of `PAGE_NAVIGATION`. -/
def divPrevnext : HtmlNode := .mk ("div".data) [] ("prevnext".data) []

/-- A leaf list item. -/
def liOf (s : Str) : HtmlNode := .mk ("li".data) [] s []

/-- A top node with a multi-word lead paragraph and an A/B/C list. -/
def topWithList : HtmlNode :=
  .mk ("div".data) [] []
    [.mk ("p".data) [] ("hello world".data) [],
     .mk ("ul".data) [] [] [liOf ("A".data), liOf ("B".data), liOf ("C".data)]]

/-- A bare top node holding only the A/B/C list. -/
def topBareList : HtmlNode :=
  .mk ("div".data) [] []
    [.mk ("ul".data) [] [] [liOf ("A".data), liOf ("B".data), liOf ("C".data)]]

/-- The tree one pipeline run produces from `topWithList`. -/
def cleanedTopWithList : HtmlNode :=
  .mk ("div".data) [] []
    [.mk ("p".data) [] ("hello world".data) [],
     .mk ("ul".data) [] []
       [.mk ("li".data) [] ("A\\n".data) [],
        .mk ("li".data) [] ("B\\n".data) [],
        .mk ("li".data) [] ("C".data) []]]

/-- A subtree of nesting depth 3. -/
def deepChild : HtmlNode :=
  .mk ("div".data) [] [] [.mk ("div".data) [] [] [.mk ("p".data) [] ("x".data) []]]

/-- A top node with four direct children whose last child has nesting
depth 3. -/
def topFourKids : HtmlNode :=
  .mk ("div".data) [] []
    [.mk ("p".data) [] ("one two".data) [],
     .mk ("p".data) [] ("three four".data) [],
     .mk ("p".data) [] ("five six".data) [],
     deepChild]

/-! ## Claim C3 -/

/-- C3: no fragment yielded by the Text Extractor — and hence no
fragment in the fragment sequence `convert_to_text` joins — contains
the literal two-character newline-marker sentinel, because every
normalized text is split on that sentinel (and empty sub-parts are
discarded). -/
theorem c3_fragments_sentinel_free :
    (∀ (node : HtmlNode) (parent : Option HtmlNode) (title : Option Str) (part : Str),
        part ∈ extract_text node parent title → containsNL part = false) ∧
    (∀ (t : HtmlNode) (title : Option Str) (part : Str),
        part ∈ convertFragments t title → containsNL part = false) := by
  constructor
  · intro node parent title part h
    rcases extract_text_mem_splitNL node parent title part h with ⟨t, ht⟩
    exact splitNL_no_marker t part ht
  · intro t title part h
    rcases List.mem_flatten.mp h with ⟨l, hl, hpart⟩
    rcases List.mem_map.mp hl with ⟨n, hn, hln⟩
    rcases extract_text_mem_splitNL n (some t) title part (hln ▸ hpart) with ⟨u, hu⟩
    exact splitNL_no_marker u part hu

/-- C3 witness: a concrete fragment of a concrete extraction is
sentinel-free. -/
theorem c3_witness :
    "a".data ∈ extract_text pSpaceBetween (some (bodyOf pSpaceBetween)) none ∧
      containsNL ("a".data) = false :=
  ⟨by decide,
   c3_fragments_sentinel_free.1 pSpaceBetween (some (bodyOf pSpaceBetween)) none
     ("a".data) (by decide)⟩

/-! ## Claim C10 -/

/-- C10: whitespace normalization happens before the sentinel split and
the sub-parts are not re-trimmed: a direct text with spaces adjacent to
the marker yields fragments with a leading or trailing space, and a
whitespace-only sub-part between two markers survives (it is not
discarded as empty). -/
theorem c10_no_retrim_after_split :
    extract_text pSpaceMarker (some (bodyOf pSpaceMarker)) none =
      ["a ".data, " b".data] ∧
    extract_text pSpaceBetween (some (bodyOf pSpaceBetween)) none =
      ["a".data, " ".data, "b".data] :=
  ⟨rfl, rfl⟩

/-! ## Claim C7 -/

/-- C7 counterexample: an excluded node's suppressed result is not
distinct from the result for an empty subtree — both are the empty
fragment sequence (a generator that yields nothing), and
`filter(None, ...)` in `convert_to_text` cannot tell generator objects
apart since they are all truthy. -/
theorem c7_counterexample :
    is_excluded figureNode (some (bodyOf figureNode)) = true ∧
    extract_text figureNode (some (bodyOf figureNode)) none =
      extract_text emptyPara (some (bodyOf emptyPara)) none :=
  ⟨rfl, rfl⟩

/-- C7 amended: if `is_excluded(node)` holds then `extract_text`
produces no fragments; this is the same observable result as for an
empty subtree — the caller cannot (and does not) distinguish the two,
treating both as contributing nothing. -/
theorem c7_excluded_yields_nothing (n m : HtmlNode) (pn pm : Option HtmlNode)
    (title : Option Str) (hex : is_excluded n pn = true)
    (hmt : m.text = []) (hmc : m.children = []) :
    extract_text n pn title = [] ∧
      extract_text n pn title = extract_text m pm title := by
  have h1 : extract_text n pn title = [] := by
    rw [extract_text]
    simp [hex]
  have h2 : extract_text m pm title = [] := by
    rw [extract_text]
    by_cases hex2 : is_excluded m pm
    · simp [hex2]
    · simp only [hex2, Bool.false_eq_true, if_false]
      cases m with
      | mk t a x cs =>
        simp only [HtmlNode.text] at hmt
        simp only [HtmlNode.children] at hmc
        subst hmt
        subst hmc
        simp [iterWithParent, iterListWithParent, HtmlNode.text]
  exact ⟨h1, h1.trans h2.symm⟩

/-- C7 witness: the amended theorem at a concrete excluded node and a
concrete empty subtree. -/
theorem c7_witness :
    is_excluded figureNode (some (bodyOf figureNode)) = true ∧
    extract_text figureNode (some (bodyOf figureNode)) none = [] :=
  ⟨by decide,
   (c7_excluded_yields_nothing figureNode emptyPara (some (bodyOf figureNode))
     (some (bodyOf emptyPara)) none (by decide) rfl rfl).1⟩

/-! ## Claim C9 -/

/-- C9: trailing media trim — with fewer than 3 direct children nothing
is removed regardless of depth; otherwise the last direct child is
removed exactly when the maximum nesting depth of its subtree (leaf
depth 1 relative to that child) is at least 2. -/
theorem c9_trailing_media_trim (t : HtmlNode) :
    (t.children.length < 3 → remove_trailing_media_div t = t) ∧
    (3 ≤ t.children.length →
      ∀ last, t.children.getLast? = some last →
        (2 ≤ get_depth last 1 →
          remove_trailing_media_div t =
            .mk t.tag t.attrs t.text t.children.dropLast) ∧
        (get_depth last 1 < 2 → remove_trailing_media_div t = t)) := by
  constructor
  · intro h
    rw [remove_trailing_media_div]
    simp [h]
  · intro h3 last hlast
    have h1 : ¬ t.children.length < 3 := by omega
    constructor
    · intro hd
      rw [remove_trailing_media_div]
      simp [h1, hlast, hd]
    · intro hd
      have h2 : ¬ 2 ≤ get_depth last 1 := by omega
      rw [remove_trailing_media_div]
      simp [h1, hlast, h2]

/-- C9 witness: a top node with 4 direct children whose last child has
nesting depth 3 loses that last child. -/
theorem c9_witness :
    3 ≤ topFourKids.children.length ∧
    remove_trailing_media_div topFourKids =
      .mk topFourKids.tag topFourKids.attrs topFourKids.text
        topFourKids.children.dropLast :=
  ⟨by decide,
   ((c9_trailing_media_trim topFourKids).2 (by decide) deepChild rfl).1 (by decide)⟩

/-! ## Claim C2 -/

/-- The six exclusion conditions exactly as the claim words them, for
comparison with the source's `is_excluded`: condition 4's first
alternative compares the trimmed direct text with the fixed sentinel
phrase only, and its second alternative compares the `p`-tag id
attribute with the fixed sentinel id only. -/
def claimedExclusion (n : HtmlNode) (parent : Option HtmlNode) : Bool :=
  decide (n.tag ∈ EXCLUDED_TAGS) ||
  (match parent with
   | some p => decide (p.tag ∈ EXCLUDED_TAGS)
   | none => false) ||
  (n.tag = "div".data && (classesOf n).any (fun c => c ∈ AD_CLASSES)) ||
  (n.tag = "span".data && (classesOf n).any (fun c => c ∈ OBJECT_DESCRIPTIONS)) ||
  (pyStrip n.text = "« previous post | next post »".data ||
    (n.tag = "p".data && getAttr n ("id".data) = some ("prevnext".data))) ||
  (classesOf n).any (fun c => c ∈ IGNORED_CLASSES) ||
  (containsSub ("Permalink".data) n.text || containsSub ("Share link".data) n.text)

/-- The amended conditions: identical except that condition 4 tests
membership of the trimmed text — and, for `p` tags, of the id
attribute — in the two-element `PAGE_NAVIGATION` set, exactly as the
source does for both alternatives. -/
def amendedExclusion (n : HtmlNode) (parent : Option HtmlNode) : Bool :=
  decide (n.tag ∈ EXCLUDED_TAGS) ||
  (match parent with
   | some p => decide (p.tag ∈ EXCLUDED_TAGS)
   | none => false) ||
  (n.tag = "div".data && (classesOf n).any (fun c => c ∈ AD_CLASSES)) ||
  (n.tag = "span".data && (classesOf n).any (fun c => c ∈ OBJECT_DESCRIPTIONS)) ||
  (decide (pyStrip n.text ∈ PAGE_NAVIGATION) ||
    (n.tag = "p".data &&
      match getAttr n ("id".data) with
      | some v => decide (v ∈ PAGE_NAVIGATION)
      | none => false)) ||
  (classesOf n).any (fun c => c ∈ IGNORED_CLASSES) ||
  (containsSub ("Permalink".data) n.text || containsSub ("Share link".data) n.text)

/-- C2 counterexample: a div whose trimmed direct text is `prevnext`
(the sentinel id, not the sentinel phrase) is excluded by the source —
the text check tests membership in the whole two-element set — yet
matches none of the six conditions as the claim states them. -/
theorem c2_counterexample :
    is_excluded divPrevnext (some (bodyOf divPrevnext)) = true ∧
    claimedExclusion divPrevnext (some (bodyOf divPrevnext)) = false :=
  ⟨rfl, rfl⟩

/-- C2 amended: for every node with a realizable parent link,
`is_excluded` returns true exactly when one of the six conditions
holds, with condition 4 reading: the trimmed direct text — or, for
`p` tags, the id attribute — is a member of the two-element
page-navigation sentinel set. -/
theorem c2_is_excluded_iff (n : HtmlNode) (parent : Option HtmlNode)
    (hpar : ∀ p, parent = some p → n ∈ p.children) :
    is_excluded n parent = amendedExclusion n parent := by
  cases parent with
  | none =>
    by_cases ht : n.text = []
    · simp only [is_excluded, amendedExclusion, is_tag_excluded, has_ads,
        looks_like_object_description, looks_like_page_navigation,
        has_ignored_class, ignored_by_content, ht]
      rw [show containsSub ("Permalink".data) ([] : Str) = false from rfl,
          show containsSub ("Share link".data) ([] : Str) = false from rfl]
      simp [Bool.or_assoc]
    · simp only [is_excluded, amendedExclusion, is_tag_excluded, has_ads,
        looks_like_object_description, looks_like_page_navigation,
        has_ignored_class, ignored_by_content, ht]
      simp [ht, Bool.or_assoc]
  | some p =>
    have hne : p.children.isEmpty = false := by
      have hmem := hpar p rfl
      cases hc : p.children with
      | nil => rw [hc] at hmem; simp at hmem
      | cons a l => rfl
    by_cases ht : n.text = []
    · simp only [is_excluded, amendedExclusion, is_tag_excluded, has_ads,
        looks_like_object_description, looks_like_page_navigation,
        has_ignored_class, ignored_by_content, ht, hne]
      rw [show containsSub ("Permalink".data) ([] : Str) = false from rfl,
          show containsSub ("Share link".data) ([] : Str) = false from rfl]
      simp [Bool.or_assoc]
    · simp only [is_excluded, amendedExclusion, is_tag_excluded, has_ads,
        looks_like_object_description, looks_like_page_navigation,
        has_ignored_class, ignored_by_content, ht, hne]
      simp [ht, Bool.or_assoc]

/-- C2 witness: the amended equivalence at a concrete node. -/
theorem c2_witness :
    is_excluded divPrevnext (some (bodyOf divPrevnext)) =
      amendedExclusion divPrevnext (some (bodyOf divPrevnext)) :=
  c2_is_excluded_iff divPrevnext (some (bodyOf divPrevnext))
    (by intro p hp; cases hp; exact List.mem_cons_self _ _)

/-! ## Claim C5 -/

/-- Every fragment the extractor yields is nonempty (empty sub-parts
are discarded by the split filter). -/
theorem extract_text_ne_nil (node : HtmlNode) (parent : Option HtmlNode)
    (title : Option Str) : ∀ part ∈ extract_text node parent title, part ≠ [] := by
  intro part h
  rw [extract_text] at h
  by_cases hex : is_excluded node parent
  · simp [hex] at h
  · simp only [hex, Bool.false_eq_true, if_false] at h
    rcases List.mem_flatMap.mp h with ⟨t, _, hpart⟩
    have hne := (List.mem_filter.mp (List.mem_filter.mp hpart).1).2
    intro hnil
    rw [hnil] at hne
    simp at hne

/-- Every fragment in the flat fragment sequence is nonempty. -/
theorem convertFragments_ne_nil (t : HtmlNode) (title : Option Str) :
    ∀ part ∈ convertFragments t title, part ≠ [] := by
  intro part h
  rcases List.mem_flatten.mp h with ⟨l, hl, hpart⟩
  rcases List.mem_map.mp hl with ⟨n, hn, hln⟩
  exact extract_text_ne_nil n (some t) title part (hln ▸ hpart)

/-- A top node whose single extracted fragment sequence starts with a
whitespace-only fragment. -/
def topSpaceFirst : HtmlNode :=
  .mk ("div".data) [] [] [.mk ("p".data) [] ("\\n \\nb".data) []]

/-- A top node whose fragments are a single-word kicker followed by a
paragraph starting with the same word. -/
def topBreaking : HtmlNode :=
  .mk ("div".data) [] [] [.mk ("p".data) [] ("Breaking\\nBreaking news".data) []]

/-- `convert_to_text` with the keep rule exactly as the claim words
it: the peeked first fragment is kept only if it exists and has more
than one whitespace-separated word. -/
def convert_to_text_claimed (top : Option HtmlNode) (title : Option Str) :
    Except Str Str :=
  match top with
  | none => .error ("TypeError".data)
  | some t =>
    match convertFragments t title with
    | [] => .ok (joinSep ("\n\n".data) [])
    | first_element :: flattened_rest =>
      let elements :=
        if 1 < (pySplitWs first_element).length then [first_element] else []
      .ok (joinSep ("\n\n".data) (elements ++ flattened_rest))

/-- C5 counterexample: the source keeps a whitespace-only first
fragment (zero words, hence not "more than one word": the code tests
word count ≠ 1, not > 1), diverging from the claimed rule; and after a
single-word first fragment is dropped the final text can still begin
with that very word. -/
theorem c5_counterexample :
    convert_to_text (some topSpaceFirst) none = .ok (" \n\nb".data) ∧
    convert_to_text_claimed (some topSpaceFirst) none = .ok ("b".data) ∧
    convert_to_text (some topBreaking) none = .ok ("Breaking news".data) ∧
    List.isPrefixOf ("Breaking".data) ("Breaking news".data) = true :=
  ⟨rfl, rfl, rfl, rfl⟩

/-- C5 amended: the peeked first fragment is kept exactly when its
whitespace word count is not 1 (so zero-word whitespace-only fragments
are also kept); retained fragments are joined with a blank line and no
trailing separator; a dropped single-word first fragment no longer
leads, though the final text may still begin with the same word when a
later fragment does. -/
theorem c5_first_fragment_rule (t : HtmlNode) (title : Option Str) :
    convert_to_text (some t) title =
      .ok (match convertFragments t title with
           | [] => []
           | first :: rest =>
             if (pySplitWs first).length = 1 then joinSep ("\n\n".data) rest
             else joinSep ("\n\n".data) (first :: rest)) := by
  rw [convert_to_text]
  cases hf : convertFragments t title with
  | nil => rfl
  | cons f r =>
    have hfne : f ≠ [] :=
      convertFragments_ne_nil t title f (hf ▸ List.mem_cons_self _ _)
    by_cases hw : (pySplitWs f).length = 1
    · simp [hw, hfne]
    · simp [hw, hfne]

/-! ## Claim C6 -/

/-- C6 counterexample: an absent (`None`) top node does not yield empty
text — `convert_to_text` iterates the top node's direct children
(`for node in self.get_top_node()`), which raises on `None`, so
`get_formatted` errors instead of returning `('', '')`. -/
theorem c6_counterexample :
    get_formatted none none false = .error ("TypeError".data) := rfl

/-- C6 amended: an empty top node (childless, attribute-free) yields
empty text — and empty HTML when HTML retention is disabled — without
error, for every tag and title; an absent top node raises an error in
`convert_to_text`. -/
theorem c6_empty_top (tag : Str) (title : Option Str) :
    get_formatted (some (.mk tag [] [] [])) title false = .ok ([], []) := by
  by_cases htag : tag = "br".data
  · subst htag; rfl
  · by_cases hul : tag = "ul".data
    · subst hul; rfl
    · have hscore : remove_negativescores_nodes (.mk tag [] [] []) =
          .ok (.mk tag [] [] []) := rfl
      have hbr : add_newline_to_br (.mk tag [] [] []) = .mk tag [] [] [] := by
        rw [add_newline_to_br, mapTree]
        simp only [HtmlNode.tag, htag, if_false, mapTreeList]
      have hli : add_newline_to_li (.mk tag [] [] []) = .mk tag [] [] [] := by
        rw [add_newline_to_li, pathsWithTag]
        simp only [HtmlNode.tag, hul, if_false, pathsWithTagList,
          List.nil_append, List.foldl_nil]
      have hclean : cleanup_rest (.mk tag [] [] []) = .mk tag [] [] [] := by
        rw [cleanup_rest]
        rw [show links_to_text (.mk tag [] [] []) = .mk tag [] [] [] from rfl]
        rw [hbr, hli]
        rw [show replace_with_text (.mk tag [] [] []) = .mk tag [] [] [] from rfl]
        rw [show remove_empty_tags (.mk tag [] [] []) = .mk tag [] [] [] from rfl]
        rw [show remove_trailing_media_div (.mk tag [] [] []) = .mk tag [] [] []
          from rfl]
      have htext : convert_to_text (some (.mk tag [] [] [])) title = .ok [] := rfl
      rw [get_formatted, hscore]
      simp only [Except.map, Option.map, hclean, htext]
      simp

/-! ## Claim C1 -/

theorem iterWithParent_head (parent : Option HtmlNode) (n : HtmlNode) :
    iterWithParent parent n = (parent, n) :: iterListWithParent n n.children := by
  cases n
  rfl

theorem iterListWithParent_mem (p : HtmlNode) (cs : List HtmlNode)
    (pc : Option HtmlNode × HtmlNode) :
    pc ∈ iterListWithParent p cs ↔ ∃ c ∈ cs, pc ∈ iterWithParent (some p) c := by
  induction cs with
  | nil => simp [iterListWithParent]
  | cons c cs ih =>
    rw [iterListWithParent]
    simp only [List.mem_append, ih, List.mem_cons]
    constructor
    · rintro (h | ⟨d, hd, hin⟩)
      · exact ⟨c, Or.inl rfl, h⟩
      · exact ⟨d, Or.inr hd, hin⟩
    · rintro ⟨d, hd | hd, hin⟩
      · exact Or.inl (hd ▸ hin)
      · exact Or.inr ⟨d, hd, hin⟩

theorem iterWithParent_parent_isSome (n : HtmlNode) :
    ∀ (p0 : HtmlNode) (pc : Option HtmlNode × HtmlNode),
      pc ∈ iterWithParent (some p0) n → pc.1.isSome := by
  induction n using node_ind with
  | _ n ih =>
    intro p0 pc hpc
    rw [iterWithParent_head] at hpc
    rcases List.mem_cons.mp hpc with h | h
    · subst h; rfl
    · rcases (iterListWithParent_mem n n.children pc).mp h with ⟨c, hc, hin⟩
      exact ih c hc n pc hin

/-- The only snapshot entry marked as sitting on the top node carries
the top node's own attribute value. -/
theorem gravityValues_top (t : HtmlNode) (v : Str)
    (h : (true, v) ∈ gravityValues t) :
    getAttr t ("gravityScore".data) = some v := by
  rw [gravityValues] at h
  rcases List.mem_filterMap.mp h with ⟨pc, hpc, hmap⟩
  rw [iterWithParent_head] at hpc
  rcases List.mem_cons.mp hpc with h1 | h1
  · subst h1
    rcases Option.map_eq_some'.mp hmap with ⟨w, hw, heq⟩
    have hv : w = v := congrArg Prod.snd heq
    exact hv ▸ hw
  · exfalso
    rcases (iterListWithParent_mem t t.children pc).mp h1 with ⟨c, hc, hin⟩
    have hs : pc.1.isSome := iterWithParent_parent_isSome c t pc hin
    rcases Option.map_eq_some'.mp hmap with ⟨w, hw, heq⟩
    have hnone : pc.1.isNone = true := congrArg Prod.fst heq
    cases hone : pc.1 with
    | none => rw [hone] at hs; exact absurd hs (by simp)
    | some q => rw [hone] at hnone; exact absurd hnone (by simp)

/-- The snapshot walk of `remove_negativescores_nodes` raises nothing
when every non-empty score value parses and the top node itself is not
flagged. -/
theorem gravityError_none (t : HtmlNode)
    (hparse : ∀ pr ∈ gravityValues t, pr.2 ≠ [] → parseScore pr.2 ≠ none)
    (htop : gravityFlagged t = false) :
    gravityError (gravityValues t) = none := by
  have key : ∀ l : List (Bool × Str), (∀ pr ∈ l, pr ∈ gravityValues t) →
      gravityError l = none := by
    intro l
    induction l with
    | nil => intro _; rfl
    | cons pr rest ih =>
      intro hl
      have hmem : pr ∈ gravityValues t := hl pr (List.mem_cons_self _ _)
      have hrest : ∀ q ∈ rest, q ∈ gravityValues t :=
        fun q hq => hl q (List.mem_cons_of_mem _ hq)
      rcases pr with ⟨isTop, v⟩
      rw [gravityError]
      by_cases hv : v = []
      · subst hv
        cases isTop with
        | true =>
          exfalso
          have hattr := gravityValues_top t [] hmem
          rw [gravityFlagged, hattr] at htop
          simp at htop
        | false =>
          simp only [if_pos rfl]
          exact ih hrest
      · cases hps : parseScore v with
        | none => exact absurd hps (hparse ⟨isTop, v⟩ hmem hv)
        | some q =>
          simp only [hv, if_neg hv, hps]
          cases isTop with
          | true =>
            have hattr := gravityValues_top t v hmem
            have hflag : gravityFlagged t = decide (q < 1) := by
              rw [gravityFlagged, hattr]
              simp [hv, hps]
            have hq : ¬ q < 1 := by
              rw [hflag] at htop
              exact of_decide_eq_false htop
            simp only [if_neg (by simp : ¬ False), hq, false_and, if_neg,
              not_false_eq_true]
            exact ih hrest
          | false =>
            simp only [if_neg (by simp : ¬ False)]
            rw [if_neg (by simp : ¬ (q < 1 ∧ false = true))]
            exact ih hrest
  exact key (gravityValues t) (fun pr h => h)

theorem iterNodes_head (n : HtmlNode) :
    iterNodes n = n :: iterList n.children := by
  cases n
  rfl

theorem mem_iterList (m : HtmlNode) (cs : List HtmlNode) :
    m ∈ iterList cs ↔ ∃ c ∈ cs, m ∈ iterNodes c := by
  induction cs with
  | nil => simp [iterList]
  | cons c cs ih =>
    rw [iterList]
    simp only [List.mem_append, ih, List.mem_cons]
    constructor
    · rintro (h | ⟨d, hd, hin⟩)
      · exact ⟨c, Or.inl rfl, h⟩
      · exact ⟨d, Or.inr hd, hin⟩
    · rintro ⟨d, hd | hd, hin⟩
      · exact Or.inl (hd ▸ hin)
      · exact Or.inr ⟨d, hd, hin⟩

theorem gravityFlagged_prune (n : HtmlNode) :
    gravityFlagged (pruneGravity n) = gravityFlagged n := by
  cases n
  rfl

theorem mem_pruneGravityList (d : HtmlNode) (cs : List HtmlNode)
    (h : d ∈ pruneGravityList cs) :
    ∃ c ∈ cs, gravityFlagged c = false ∧ d = pruneGravity c := by
  induction cs with
  | nil => simp [pruneGravityList] at h
  | cons c cs ih =>
    rw [pruneGravityList] at h
    by_cases hf : gravityFlagged c
    · rw [if_pos hf] at h
      rcases ih h with ⟨e, he, hfe, hde⟩
      exact ⟨e, List.mem_cons_of_mem _ he, hfe, hde⟩
    · rw [if_neg hf] at h
      rcases List.mem_cons.mp h with h1 | h1
      · exact ⟨c, List.mem_cons_self _ _, Bool.eq_false_iff.mpr hf, h1⟩
      · rcases ih h1 with ⟨e, he, hfe, hde⟩
        exact ⟨e, List.mem_cons_of_mem _ he, hfe, hde⟩

/-- After pruning, no surviving node is flagged (given that the root
itself is not). -/
theorem pruneGravity_unflagged (t : HtmlNode) :
    gravityFlagged t = false →
      ∀ m ∈ iterNodes (pruneGravity t), gravityFlagged m = false := by
  induction t using node_ind with
  | _ n ih =>
    intro hroot m hm
    cases n with
    | mk tg a x cs =>
      rw [show pruneGravity (.mk tg a x cs) = .mk tg a x (pruneGravityList cs)
            from rfl, iterNodes_head] at hm
      rcases List.mem_cons.mp hm with h1 | h1
      · subst h1
        rw [show gravityFlagged (.mk tg a x (pruneGravityList cs)) =
              gravityFlagged (.mk tg a x cs) from rfl]
        exact hroot
      · simp only [HtmlNode.children] at h1
        rcases (mem_iterList m (pruneGravityList cs)).mp h1 with ⟨d, hd, hmd⟩
        rcases mem_pruneGravityList d cs hd with ⟨c, hc, hfc, hdc⟩
        subst hdc
        exact ih c hc hfc m hmd

/-- A descendant carrying `gravityScore="abc"` (non-empty, unparsable). -/
def topBadScore : HtmlNode :=
  .mk ("div".data) [] []
    [.mk ("div".data) [("gravityScore".data, "abc".data)] ("x".data) []]

/-- A top node with one prune-eligible (`0.4`) and one retained (`2.5`)
scored child. -/
def topScored : HtmlNode :=
  .mk ("div".data) [] []
    [.mk ("div".data) [("gravityScore".data, "0.4".data)] ("low".data) [],
     .mk ("div".data) [("gravityScore".data, "2.5".data)] ("high".data) []]

/-- C1 counterexample: a non-empty unparsable `gravityScore` value does
not degrade to 0 — `float(score)` raises `ValueError`, aborting
extraction. -/
theorem c1_counterexample :
    remove_negativescores_nodes topBadScore = .error ("ValueError".data) := rfl

/-- C1 amended: an empty or missing value degrades to 0
(prune-eligible); a non-empty unparsable value raises an error and
aborts.  When every non-empty snapshot value parses and the top node
itself is not flagged, the pass succeeds, the surviving tree is the
recursive pruning that detaches a node (and subtree) exactly when its
parsed score is below 1, and no node with score below 1 survives. -/
theorem c1_score_pruning (t : HtmlNode)
    (hparse : ∀ pr ∈ gravityValues t, pr.2 ≠ [] → parseScore pr.2 ≠ none)
    (htop : gravityFlagged t = false) :
    remove_negativescores_nodes t = .ok (pruneGravity t) ∧
    ∀ m ∈ iterNodes (pruneGravity t), gravityFlagged m = false := by
  constructor
  · rw [remove_negativescores_nodes, gravityError_none t hparse htop]
  · exact pruneGravity_unflagged t htop

/-- C1 witness: on the concrete scored tree the pass succeeds and the
result retains no low-scored node (`0.4` pruned, `2.5` kept). -/
theorem c1_witness :
    remove_negativescores_nodes topScored = .ok (pruneGravity topScored) ∧
    ∀ m ∈ iterNodes (pruneGravity topScored), gravityFlagged m = false :=
  c1_score_pruning topScored (by decide) (by decide)

/-! ## Claim C8 -/

/-- C8 counterexample: the bare A/B/C list alone under the top node
does not produce the three paragraphs — the first fragment "A" is a
single word, so the kicker heuristic of `convert_to_text` drops it and
the final text is just "B", blank line, "C" (no "A" anywhere). -/
theorem c8_counterexample :
    get_formatted (some topBareList) none false = .ok ("B\n\nC".data, []) ∧
    containsSub ("A".data) ("B\n\nC".data) = false :=
  ⟨rfl, rfl⟩

/-! Helper lemmas for the general list-item normalization theorem. -/

/-- Self-membership in the document-order traversal. -/
theorem self_mem_iterNodes (n : HtmlNode) : n ∈ iterNodes n := by
  rw [iterNodes_head]
  exact List.mem_cons_self _ _

/-- The traversal of a child is contained in the parent's traversal. -/
theorem iterNodes_subset_of_child (t c : HtmlNode) (hc : c ∈ t.children) :
    ∀ m ∈ iterNodes c, m ∈ iterNodes t := by
  intro m hm
  rw [iterNodes_head]
  exact List.mem_cons_of_mem _ ((mem_iterList m t.children).mpr ⟨c, hc, hm⟩)

theorem get_append_mid {α : Type} :
    ∀ (l1 : List α) (r : α) (l2 : List α), (l1 ++ r :: l2).get? l1.length = some r := by
  intro l1 r l2
  induction l1 with
  | nil => rfl
  | cons a t ih => simpa using ih

theorem set_append_mid {α : Type} :
    ∀ (l1 : List α) (r v : α) (l2 : List α),
      (l1 ++ r :: l2).set l1.length v = l1 ++ v :: l2 := by
  intro l1 r v l2
  induction l1 with
  | nil => rfl
  | cons a t ih => simp [ih]

theorem dropLast_append_drop {α : Type} :
    ∀ l : List α, l.dropLast ++ l.drop (l.length - 1) = l := by
  intro l
  induction l with
  | nil => rfl
  | cons a t ih =>
    cases t with
    | nil => rfl
    | cons b u =>
      simp only [List.dropLast_cons₂, List.length_cons, List.cons_append]
      simpa using ih

theorem map_dropLast {α β : Type} (f : α → β) :
    ∀ l : List α, (l.map f).dropLast = l.dropLast.map f := by
  intro l
  induction l with
  | nil => rfl
  | cons a t ih =>
    cases t with
    | nil => rfl
    | cons b u => simp [ih]

theorem dropLast_range : ∀ n : Nat, (List.range n).dropLast = List.range (n - 1) := by
  intro n
  cases n with
  | zero => rfl
  | succ m => rw [List.range_succ, List.dropLast_concat]; rfl

theorem iterList_append :
    ∀ l1 l2 : List HtmlNode, iterList (l1 ++ l2) = iterList l1 ++ iterList l2 := by
  intro l1 l2
  induction l1 with
  | nil => rfl
  | cons c t ih => rw [List.cons_append, iterList, iterList, ih, List.append_assoc]

theorem pathsWithTagList_nil_of (tag : Str) :
    ∀ (cs : List HtmlNode) (i : Nat),
      (∀ c ∈ cs, pathsWithTag tag c = []) → pathsWithTagList tag i cs = [] := by
  intro cs
  induction cs with
  | nil => intro i _; rfl
  | cons c rest ih =>
    intro i h
    rw [pathsWithTagList, h c (List.mem_cons_self _ _), List.map_nil,
      List.nil_append]
    exact ih (i + 1) (fun d hd => h d (List.mem_cons_of_mem _ hd))

/-- A subtree with no node of the given tag contributes no paths. -/
theorem pathsWithTag_nil (tag : Str) (t : HtmlNode)
    (h : ∀ m ∈ iterNodes t, m.tag ≠ tag) : pathsWithTag tag t = [] := by
  induction t using node_ind with
  | _ n ih =>
    cases n with
    | mk tg a x cs =>
      rw [pathsWithTag]
      have hroot : ¬ (tg = tag) := by
        have := h (.mk tg a x cs) (self_mem_iterNodes _)
        simpa using this
      rw [if_neg hroot, List.nil_append]
      apply pathsWithTagList_nil_of
      intro c hc
      apply ih c hc
      intro m hm
      exact h m (iterNodes_subset_of_child (.mk tg a x cs) c hc m hm)

theorem pathsWithTagList_append (tag : Str) :
    ∀ (cs1 cs2 : List HtmlNode) (i : Nat),
      pathsWithTagList tag i (cs1 ++ cs2) =
        pathsWithTagList tag i cs1 ++ pathsWithTagList tag (i + cs1.length) cs2 := by
  intro cs1
  induction cs1 with
  | nil => intro cs2 i; simp [pathsWithTagList]
  | cons c rest ih =>
    intro cs2 i
    rw [List.cons_append, pathsWithTagList, pathsWithTagList, ih cs2 (i + 1),
      List.append_assoc, List.length_cons]
    have harith : i + 1 + rest.length = i + (rest.length + 1) := by omega
    rw [harith]

theorem pathsWithTagList_singletons (tag : Str) :
    ∀ (cs : List HtmlNode) (i : Nat),
      (∀ c ∈ cs, pathsWithTag tag c = [[]]) →
      pathsWithTagList tag i cs = (List.range cs.length).map (fun j => [i + j]) := by
  intro cs
  induction cs with
  | nil => intro i _; rfl
  | cons c rest ih =>
    intro i h
    rw [pathsWithTagList, h c (List.mem_cons_self _ _),
      ih (i + 1) (fun d hd => h d (List.mem_cons_of_mem _ hd)),
      List.length_cons, List.range_succ_eq_map]
    simp only [List.map_cons, List.map_nil, List.map_map, List.cons_append,
      List.nil_append]
    congr 1
    apply List.map_congr_left
    intro a ha
    simp only [Function.comp_apply]
    congr 1
    omega

theorem setPath_nil (n v : HtmlNode) : setPath n [] v = v := by
  cases n
  rfl

/-- Evaluating one inner-loop step of `add_newline_to_li` at the path
of the item at index `done.length` of the single list container. -/
theorem li_step_eval (ttag : Str) (tattrs uattrs : List (Str × Str))
    (ttext utext : Str) (pre post done mid : List HtmlNode) (r : HtmlNode) :
    (match getPath
        (HtmlNode.mk ttag tattrs ttext
          (pre ++ (HtmlNode.mk ("ul".data) uattrs utext (done ++ r :: mid)) :: post))
        [pre.length, done.length] with
     | none =>
       HtmlNode.mk ttag tattrs ttext
         (pre ++ (HtmlNode.mk ("ul".data) uattrs utext (done ++ r :: mid)) :: post)
     | some ln =>
       setPath
         (HtmlNode.mk ttag tattrs ttext
           (pre ++ (HtmlNode.mk ("ul".data) uattrs utext (done ++ r :: mid)) :: post))
         [pre.length, done.length]
         (HtmlNode.mk ln.tag ln.attrs (getText ln ++ nlMarker) []))
    = HtmlNode.mk ttag tattrs ttext
        (pre ++ (HtmlNode.mk ("ul".data) uattrs utext
          (done ++ (HtmlNode.mk r.tag r.attrs (getText r ++ nlMarker) []) :: mid)) :: post) := by
  have hget : getPath
      (HtmlNode.mk ttag tattrs ttext
        (pre ++ (HtmlNode.mk ("ul".data) uattrs utext (done ++ r :: mid)) :: post))
      [pre.length, done.length] = some r := by
    show (match (pre ++ (HtmlNode.mk ("ul".data) uattrs utext (done ++ r :: mid)) :: post).get?
            pre.length with
          | some c => getPath c [done.length]
          | none => none) = some r
    rw [get_append_mid]
    show (match (done ++ r :: mid).get? done.length with
          | some c => getPath c []
          | none => none) = some r
    rw [get_append_mid]
    rfl
  rw [hget]
  show setPath
      (HtmlNode.mk ttag tattrs ttext
        (pre ++ (HtmlNode.mk ("ul".data) uattrs utext (done ++ r :: mid)) :: post))
      [pre.length, done.length]
      (HtmlNode.mk r.tag r.attrs (getText r ++ nlMarker) []) = _
  rw [setPath, get_append_mid]
  show HtmlNode.mk ttag tattrs ttext
      ((pre ++ (HtmlNode.mk ("ul".data) uattrs utext (done ++ r :: mid)) :: post).set
        pre.length
        (setPath (HtmlNode.mk ("ul".data) uattrs utext (done ++ r :: mid))
          [done.length]
          (HtmlNode.mk r.tag r.attrs (getText r ++ nlMarker) []))) = _
  rw [set_append_mid]
  rw [setPath, get_append_mid]
  show HtmlNode.mk ttag tattrs ttext
      (pre ++ (HtmlNode.mk ("ul".data) uattrs utext
        ((done ++ r :: mid).set done.length
          (setPath r []
            (HtmlNode.mk r.tag r.attrs (getText r ++ nlMarker) [])))) :: post) = _
  rw [set_append_mid, setPath_nil]

/-- The inner loop of `add_newline_to_li`, folded over the index run of
the `rest` block of items (with `done` items already rewritten before
them and `suffix` items after them), rewrites exactly the `rest`
items: each gets its accumulated text plus the newline marker and loses
its children. -/
theorem li_fold (ttag : Str) (tattrs uattrs : List (Str × Str))
    (ttext utext : Str) (pre post suffix : List HtmlNode) :
    ∀ (rest done : List HtmlNode),
      List.foldl
        (fun acc2 l =>
          match getPath acc2 l with
          | none => acc2
          | some ln => setPath acc2 l (.mk ln.tag ln.attrs (getText ln ++ nlMarker) []))
        (HtmlNode.mk ttag tattrs ttext
          (pre ++ (HtmlNode.mk ("ul".data) uattrs utext (done ++ (rest ++ suffix))) :: post))
        ((List.range' done.length rest.length).map (fun j => [pre.length, j]))
      = HtmlNode.mk ttag tattrs ttext
          (pre ++ (HtmlNode.mk ("ul".data) uattrs utext
            (done ++ (rest.map (fun it =>
              HtmlNode.mk it.tag it.attrs (getText it ++ nlMarker) []) ++ suffix))) :: post) := by
  intro rest
  induction rest with
  | nil => intro done; rfl
  | cons r rs ih =>
    intro done
    rw [show List.range' done.length (r :: rs).length
          = done.length :: List.range' (done.length + 1) rs.length from rfl]
    rw [List.map_cons, List.foldl_cons]
    rw [show done ++ (r :: rs ++ suffix) = done ++ r :: (rs ++ suffix) from rfl]
    rw [li_step_eval ttag tattrs uattrs ttext utext pre post done (rs ++ suffix) r]
    have ih2 := ih (done ++ [HtmlNode.mk r.tag r.attrs (getText r ++ nlMarker) []])
    simp only [List.length_append, List.length_cons, List.length_nil, Nat.zero_add,
      List.append_assoc, List.singleton_append] at ih2
    rw [List.map_cons, List.cons_append]
    exact ih2

/-- C8 amended: for every (non-nested) list container — arbitrary
item count, arbitrary item attributes, texts and inline descendants
free of nested list markup, arbitrary ul-free siblings around the
container — list-item normalization sets the text of every item except
the last to its accumulated text followed by the newline marker and
drops all of its children, leaving the last item untouched; after the
full pipeline, items 1-2 of an A/B/C list carry the trailing marker
with no children; and the final text contains the three paragraphs
"A", "B", "C" in order provided a multi-word fragment precedes the
list — for a bare list the kicker heuristic drops the leading
single-word "A". -/
theorem c8_list_items_normalized
    (ttag ttext utext : Str) (tattrs uattrs : List (Str × Str))
    (pre post items : List HtmlNode)
    (htop : ttag ≠ "ul".data)
    (hsides : ∀ n ∈ iterList (pre ++ post), n.tag ≠ "ul".data)
    (hitems : ∀ it ∈ items, it.tag = "li".data)
    (hflat : ∀ it ∈ items, ∀ d ∈ iterList it.children,
        d.tag ≠ "ul".data ∧ d.tag ≠ "li".data) :
    add_newline_to_li
        (HtmlNode.mk ttag tattrs ttext
          (pre ++ (HtmlNode.mk ("ul".data) uattrs utext items) :: post))
      = HtmlNode.mk ttag tattrs ttext
          (pre ++ (HtmlNode.mk ("ul".data) uattrs utext
            (items.dropLast.map (fun it =>
               HtmlNode.mk it.tag it.attrs (getText it ++ nlMarker) []) ++
             items.drop (items.length - 1))) :: post) ∧
    cleanup_pipeline topWithList = .ok cleanedTopWithList ∧
    get_formatted (some topWithList) none false =
      .ok ("hello world\n\nA\n\nB\n\nC".data, []) := by
  refine ⟨?_, rfl, rfl⟩
  have hpre : ∀ c ∈ pre, pathsWithTag ("ul".data) c = [] := by
    intro c hc
    apply pathsWithTag_nil
    intro m hm
    apply hsides
    rw [iterList_append]
    exact List.mem_append_left _ ((mem_iterList m pre).mpr ⟨c, hc, hm⟩)
  have hpost : ∀ c ∈ post, pathsWithTag ("ul".data) c = [] := by
    intro c hc
    apply pathsWithTag_nil
    intro m hm
    apply hsides
    rw [iterList_append]
    exact List.mem_append_right _ ((mem_iterList m post).mpr ⟨c, hc, hm⟩)
  have hitemul : ∀ it ∈ items, pathsWithTag ("ul".data) it = [] := by
    intro it hit
    apply pathsWithTag_nil
    intro m hm
    rw [iterNodes_head] at hm
    rcases List.mem_cons.mp hm with h1 | h1
    · subst h1
      rw [hitems m hit]
      decide
    · exact (hflat it hit m h1).1
  have hulpaths : pathsWithTag ("ul".data)
      (HtmlNode.mk ("ul".data) uattrs utext items) = [[]] := by
    rw [pathsWithTag, if_pos rfl, pathsWithTagList_nil_of _ items 0 hitemul,
      List.append_nil]
  have hmain : pathsWithTag ("ul".data)
      (HtmlNode.mk ttag tattrs ttext
        (pre ++ (HtmlNode.mk ("ul".data) uattrs utext items) :: post))
      = [[pre.length]] := by
    rw [pathsWithTag, if_neg htop, List.nil_append,
      pathsWithTagList_append _ pre _ 0,
      pathsWithTagList_nil_of _ pre 0 hpre, List.nil_append,
      pathsWithTagList, hulpaths,
      pathsWithTagList_nil_of _ post _ hpost]
    simp
  have hliitem : ∀ it ∈ items, pathsWithTag ("li".data) it = [[]] := by
    intro it hit
    have hcs : ∀ c ∈ it.children, pathsWithTag ("li".data) c = [] := by
      intro c hc
      apply pathsWithTag_nil
      intro m hm
      exact (hflat it hit m ((mem_iterList m it.children).mpr ⟨c, hc, hm⟩)).2
    have htag := hitems it hit
    cases it with
    | mk t a x cs =>
      have htag2 : t = "li".data := htag
      have hnil : pathsWithTagList ("li".data) 0 cs = [] := by
        apply pathsWithTagList_nil_of
        intro c hc
        exact hcs c hc
      rw [pathsWithTag, if_pos htag2, hnil, List.append_nil]
  have hlipaths : pathsWithTag ("li".data)
      (HtmlNode.mk ("ul".data) uattrs utext items)
      = (List.range items.length).map (fun j => [j]) := by
    rw [pathsWithTag, if_neg (by decide : ¬ ("ul".data = "li".data)),
      List.nil_append, pathsWithTagList_singletons _ items 0 hliitem]
    simp
  have hgetul : getPath
      (HtmlNode.mk ttag tattrs ttext
        (pre ++ (HtmlNode.mk ("ul".data) uattrs utext items) :: post))
      [pre.length] = some (HtmlNode.mk ("ul".data) uattrs utext items) := by
    show (match (pre ++ (HtmlNode.mk ("ul".data) uattrs utext items) :: post).get?
            pre.length with
          | some c => getPath c []
          | none => none) = some (HtmlNode.mk ("ul".data) uattrs utext items)
    rw [get_append_mid]
    rfl
  rw [add_newline_to_li, hmain, List.foldl_cons, List.foldl_nil]
  simp only [hgetul]
  rw [hlipaths, List.map_map]
  show List.foldl
      (fun acc2 l =>
        match getPath acc2 l with
        | none => acc2
        | some ln => setPath acc2 l (.mk ln.tag ln.attrs (getText ln ++ nlMarker) []))
      (HtmlNode.mk ttag tattrs ttext
        (pre ++ (HtmlNode.mk ("ul".data) uattrs utext items) :: post))
      (((List.range items.length).map (fun j => [pre.length, j])).dropLast) = _
  rw [map_dropLast, dropLast_range, List.range_eq_range']
  have hfold := li_fold ttag tattrs uattrs ttext utext pre post
    (items.drop (items.length - 1)) items.dropLast []
  rw [List.length_nil, List.nil_append, List.length_dropLast,
    dropLast_append_drop] at hfold
  exact hfold

/-- C8 witness: the amended theorem at the concrete A/B/C list
preceded by a multi-word paragraph. -/
theorem c8_witness :
    (∀ it ∈ [liOf ("A".data), liOf ("B".data), liOf ("C".data)],
        it.tag = "li".data) ∧
    add_newline_to_li
        (HtmlNode.mk ("div".data) [] []
          ([HtmlNode.mk ("p".data) [] ("hello world".data) []] ++
            (HtmlNode.mk ("ul".data) [] []
              [liOf ("A".data), liOf ("B".data), liOf ("C".data)]) :: []))
      = HtmlNode.mk ("div".data) [] []
          ([HtmlNode.mk ("p".data) [] ("hello world".data) []] ++
            (HtmlNode.mk ("ul".data) [] []
              ([liOf ("A".data), liOf ("B".data), liOf ("C".data)].dropLast.map
                 (fun it =>
                   HtmlNode.mk it.tag it.attrs (getText it ++ nlMarker) []) ++
               [liOf ("A".data), liOf ("B".data), liOf ("C".data)].drop
                 ([liOf ("A".data), liOf ("B".data), liOf ("C".data)].length - 1)))
              :: []) :=
  ⟨by decide,
   (c8_list_items_normalized ("div".data) [] [] [] []
      [HtmlNode.mk ("p".data) [] ("hello world".data) []] []
      [liOf ("A".data), liOf ("B".data), liOf ("C".data)]
      (by decide) (by decide) (by decide) (by decide)).1⟩

/-! ## Claim C4 -/

/-- No node of the subtree carries one of the given tags. -/
def noTagsIn (tags : List Str) (t : HtmlNode) : Bool :=
  (iterNodes t).all (fun n => !(n.tag ∈ tags))

/-- Every `gravityScore` value in the subtree is non-empty and parses
to at least 1. -/
def scoresOk (t : HtmlNode) : Bool :=
  (iterNodes t).all (fun n =>
    match getAttr n ("gravityScore".data) with
    | none => true
    | some v =>
      v ≠ [] &&
        match parseScore v with
        | some q => 1 ≤ q
        | none => false)

/-- No list container of the subtree holds two or more list items. -/
def listsSmall (t : HtmlNode) : Bool :=
  (iterNodes t).all (fun n =>
    !(n.tag = "ul".data) || (pathsWithTag ("li".data) n).length ≤ 1)

/-- Every proper descendant of the top node has visible accumulated
text or an embedded-object/embed descendant. -/
def noEmptyDescendants (t : HtmlNode) : Bool :=
  (iterList t.children).all (fun n =>
    getText n ≠ [] || hasTagInside ("object".data) n || hasTagInside ("embed".data) n)

/-- The trailing media trim does not fire: fewer than 3 direct
children, or a shallow last child. -/
def noTrailingTrim (t : HtmlNode) : Bool :=
  t.children.length < 3 ||
    (match t.children.getLast? with
     | some l => get_depth l 1 < 2
     | none => true)

/-- Stripping tags that occur nowhere in a subtree is the identity. -/
theorem stripNode_id (tags : List Str) (t : HtmlNode)
    (h : noTagsIn tags t = true) : stripNode tags t = t := by
  induction t using node_ind with
  | _ n ih =>
    have hsub : ∀ c ∈ n.children, noTagsIn tags c = true := by
      intro c hc
      rw [noTagsIn, List.all_eq_true]
      intro m hm
      exact (List.all_eq_true.mp h) m (iterNodes_subset_of_child n c hc m hm)
    have hseq : ∀ cs, (∀ c ∈ cs, c ∈ n.children) → stripSeq tags cs = ([], cs) := by
      intro cs
      induction cs with
      | nil => intro _; rfl
      | cons c rest ihl =>
        intro hcs
        have hcmem : c ∈ n.children := hcs c (List.mem_cons_self _ _)
        have hcid : stripNode tags c = c := ih c hcmem (hsub c hcmem)
        have hct : ¬ (c.tag ∈ tags) := by
          have := (List.all_eq_true.mp (hsub c hcmem)) c (self_mem_iterNodes c)
          simpa using this
        rw [stripSeq]
        cases c with
        | mk ct ca cx ccs =>
          rw [hcid, ihl (fun d hd => hcs d (List.mem_cons_of_mem _ hd))]
          simp only [HtmlNode.tag] at hct
          simp [hct]
    cases n with
    | mk t a x cs =>
      rw [stripNode, hseq cs (fun c hc => hc)]
      simp

/-- Unfolding `mapTree` at a fixed point of the node rewrite. -/
theorem mapTree_fix (f : HtmlNode → HtmlNode) (t : Str) (a : List (Str × Str))
    (x : Str) (cs : List HtmlNode) (hf : f (.mk t a x cs) = .mk t a x cs) :
    mapTree f (.mk t a x cs) = .mk t a x (mapTreeList f cs) := by
  rw [mapTree, hf]

/-- Rewriting br texts in a br-free subtree is the identity. -/
theorem add_newline_to_br_id (t : HtmlNode)
    (h : noTagsIn ["br".data] t = true) : add_newline_to_br t = t := by
  rw [add_newline_to_br]
  induction t using node_ind with
  | _ n ih =>
    have hsub : ∀ c ∈ n.children, noTagsIn ["br".data] c = true := by
      intro c hc
      rw [noTagsIn, List.all_eq_true]
      intro m hm
      exact (List.all_eq_true.mp h) m (iterNodes_subset_of_child n c hc m hm)
    have hroot : ¬ (n.tag ∈ ["br".data]) := by
      have := (List.all_eq_true.mp h) n (self_mem_iterNodes n)
      simpa using this
    have hlist : ∀ cs, (∀ c ∈ cs, c ∈ n.children) →
        mapTreeList (fun m =>
          if m.tag = "br".data then .mk m.tag m.attrs nlMarker m.children else m) cs
          = cs := by
      intro cs
      induction cs with
      | nil => intro _; rfl
      | cons c rest ihl =>
        intro hcs
        have hcmem : c ∈ n.children := hcs c (List.mem_cons_self _ _)
        rw [mapTreeList, ih c hcmem (hsub c hcmem),
          ihl (fun d hd => hcs d (List.mem_cons_of_mem _ hd))]
    cases n with
    | mk t a x cs =>
      have hf : (fun m : HtmlNode =>
          if m.tag = "br".data then HtmlNode.mk m.tag m.attrs nlMarker m.children
          else m) (.mk t a x cs) = .mk t a x cs := by
        simp only [List.mem_singleton] at hroot
        exact if_neg hroot
      rw [mapTree_fix (fun m : HtmlNode =>
        if m.tag = "br".data then HtmlNode.mk m.tag m.attrs nlMarker m.children
        else m) t a x cs hf]
      rw [hlist cs (fun c hc => hc)]

theorem pathsWithTagList_sound (tag : Str) :
    ∀ (cs : List HtmlNode) (i : Nat) (p : List Nat),
      p ∈ pathsWithTagList tag i cs →
      ∃ j q c, p = (i + j) :: q ∧ cs.get? j = some c ∧ q ∈ pathsWithTag tag c := by
  intro cs
  induction cs with
  | nil => intro i p hp; simp [pathsWithTagList] at hp
  | cons c rest ih =>
    intro i p hp
    rw [pathsWithTagList] at hp
    rcases List.mem_append.mp hp with h1 | h1
    · rcases List.mem_map.mp h1 with ⟨q, hq, hpq⟩
      exact ⟨0, q, c, by rw [← hpq, Nat.add_zero], rfl, hq⟩
    · rcases ih (i + 1) p h1 with ⟨j, q, d, hpj, hget, hq⟩
      refine ⟨j + 1, q, d, ?_, hget, hq⟩
      rw [hpj]
      congr 1
      omega

theorem pathsWithTag_sound (tag : Str) (t : HtmlNode) :
    ∀ p ∈ pathsWithTag tag t,
      ∃ n, getPath t p = some n ∧ n.tag = tag ∧ n ∈ iterNodes t := by
  induction t using node_ind with
  | _ n ih =>
    intro p hp
    cases n with
    | mk tg a x cs =>
      rw [pathsWithTag] at hp
      rcases List.mem_append.mp hp with h1 | h1
      · by_cases htg : tg = tag
        · rw [if_pos htg] at h1
          rw [List.mem_singleton.mp h1]
          exact ⟨.mk tg a x cs, rfl, htg, self_mem_iterNodes _⟩
        · rw [if_neg htg] at h1
          simp at h1
      · rcases pathsWithTagList_sound tag cs 0 p h1 with ⟨j, q, c, hpj, hget, hq⟩
        have hc : c ∈ cs := List.get?_mem hget
        rcases ih c hc q hq with ⟨m, hpath, htagm, hmem⟩
        refine ⟨m, ?_, htagm, iterNodes_subset_of_child (.mk tg a x cs) c hc m hmem⟩
        rw [hpj, getPath]
        rw [show (0 + j) = j from by omega, show (HtmlNode.mk tg a x cs).children = cs from rfl, hget]
        exact hpath

theorem foldl_self {α β : Type} (f : α → β → α) (l : List β) (a : α)
    (h : ∀ b ∈ l, f a b = a) : l.foldl f a = a := by
  induction l with
  | nil => rfl
  | cons b rest ih =>
    rw [List.foldl_cons, h b (List.mem_cons_self _ _)]
    exact ih (fun d hd => h d (List.mem_cons_of_mem _ hd))

theorem dropLast_of_short {α : Type} (l : List α) (h : l.length ≤ 1) :
    l.dropLast = [] := by
  cases l with
  | nil => rfl
  | cons a rest =>
    cases rest with
    | nil => rfl
    | cons b r => simp at h

/-- List-item normalization is the identity on trees in which no list
container holds two or more items. -/
theorem add_newline_to_li_id (t : HtmlNode) (h : listsSmall t = true) :
    add_newline_to_li t = t := by
  rw [add_newline_to_li]
  apply foldl_self
  intro u hu
  rcases pathsWithTag_sound ("ul".data) t u hu with ⟨un, hpath, htag, hmem⟩
  rw [hpath]
  have hlen : (pathsWithTag ("li".data) un).length ≤ 1 := by
    have := (List.all_eq_true.mp h) un hmem
    rw [htag] at this
    simpa using this
  show List.foldl _ t (List.map (fun p => u ++ p) (pathsWithTag ("li".data) un)).dropLast = t
  rw [dropLast_of_short _ (by rw [List.length_map]; exact hlen), List.foldl_nil]

theorem iterWithParent_proj (n : HtmlNode) :
    ∀ (parent : Option HtmlNode) (pc : Option HtmlNode × HtmlNode),
      pc ∈ iterWithParent parent n → pc.2 ∈ iterNodes n := by
  induction n using node_ind with
  | _ n ih =>
    intro parent pc hpc
    rw [iterWithParent_head] at hpc
    rcases List.mem_cons.mp hpc with h | h
    · subst h
      exact self_mem_iterNodes n
    · rcases (iterListWithParent_mem n n.children pc).mp h with ⟨c, hc, hin⟩
      exact iterNodes_subset_of_child n c hc pc.2 (ih c hc (some n) pc hin)

theorem scoresOk_unflagged (t : HtmlNode) (h : scoresOk t = true) :
    ∀ m ∈ iterNodes t, gravityFlagged m = false := by
  intro m hm
  have hmk := (List.all_eq_true.mp h) m hm
  rw [gravityFlagged]
  cases hattr : getAttr m ("gravityScore".data) with
  | none => rfl
  | some v =>
    rw [hattr] at hmk
    simp only at hmk
    rw [Bool.and_eq_true] at hmk
    rcases hmk with ⟨hv, hq⟩
    cases hps : parseScore v with
    | none => rw [hps] at hq; simp at hq
    | some q =>
      rw [hps] at hq
      have h1q : (1 : ℚ) ≤ q := by simpa using hq
      have hvne : ¬ (v = []) := by simpa using hv
      simp only [if_neg hvne, hps, Option.getD_some]
      simp only [decide_eq_false_iff_not, not_lt]
      exact h1q

theorem scoresOk_parse (t : HtmlNode) (h : scoresOk t = true) :
    ∀ pr ∈ gravityValues t, pr.2 ≠ [] → parseScore pr.2 ≠ none := by
  intro pr hpr hne
  rw [gravityValues] at hpr
  rcases List.mem_filterMap.mp hpr with ⟨pc, hpc, hmap⟩
  rcases Option.map_eq_some'.mp hmap with ⟨v, hv, heq⟩
  have hmem : pc.2 ∈ iterNodes t := iterWithParent_proj t none pc hpc
  have hmk := (List.all_eq_true.mp h) pc.2 hmem
  rw [hv] at hmk
  simp only at hmk
  rw [Bool.and_eq_true] at hmk
  rcases hmk with ⟨_, hq⟩
  have hsnd : pr.2 = v := by rw [← heq]
  rw [hsnd]
  cases hps : parseScore v with
  | none => rw [hps] at hq; simp at hq
  | some q => simp

theorem pruneGravity_id (t : HtmlNode)
    (h : ∀ m ∈ iterNodes t, gravityFlagged m = false) : pruneGravity t = t := by
  induction t using node_ind with
  | _ n ih =>
    cases n with
    | mk tg a x cs =>
      rw [show pruneGravity (.mk tg a x cs) = .mk tg a x (pruneGravityList cs)
        from rfl]
      have hlist : ∀ ds, (∀ c ∈ ds, c ∈ cs) → pruneGravityList ds = ds := by
        intro ds
        induction ds with
        | nil => intro _; rfl
        | cons c rest ihl =>
          intro hds
          have hc : c ∈ cs := hds c (List.mem_cons_self _ _)
          have hsub : ∀ m ∈ iterNodes c, gravityFlagged m = false := by
            intro m hm
            exact h m (iterNodes_subset_of_child (.mk tg a x cs) c hc m hm)
          have hflag : gravityFlagged c = false := hsub c (self_mem_iterNodes c)
          rw [pruneGravityList, if_neg (by simp [hflag]), ih c hc hsub,
            ihl (fun d hd => hds d (List.mem_cons_of_mem _ hd))]
      rw [hlist cs (fun c hc => hc)]

/-- Score pruning is the identity (and error-free) when every score in
the tree is present-and-at-least-1 or absent. -/
theorem remove_negativescores_id (t : HtmlNode) (h : scoresOk t = true) :
    remove_negativescores_nodes t = .ok t := by
  have hflags := scoresOk_unflagged t h
  rw [remove_negativescores_nodes,
    gravityError_none t (scoresOk_parse t h) (hflags t (self_mem_iterNodes t)),
    pruneGravity_id t hflags]

theorem retNode_id (n : HtmlNode)
    (h : ∀ m ∈ iterNodes n,
      (getText m ≠ [] || hasTagInside ("object".data) m ||
        hasTagInside ("embed".data) m) = true) :
    retNode n = some n := by
  induction n using node_ind with
  | _ n ih =>
    cases n with
    | mk tg a x cs =>
      have hlist : ∀ ds, (∀ c ∈ ds, c ∈ cs) → retList ds = ds := by
        intro ds
        induction ds with
        | nil => intro _; rfl
        | cons c rest ihl =>
          intro hds
          have hc : c ∈ cs := hds c (List.mem_cons_self _ _)
          have hsub : ∀ m ∈ iterNodes c,
              (getText m ≠ [] || hasTagInside ("object".data) m ||
                hasTagInside ("embed".data) m) = true := by
            intro m hm
            exact h m (iterNodes_subset_of_child (.mk tg a x cs) c hc m hm)
          rw [retList, ih c hc hsub,
            ihl (fun d hd => hds d (List.mem_cons_of_mem _ hd))]
      rw [retNode, hlist cs (fun c hc => hc)]
      have hself := h (.mk tg a x cs) (self_mem_iterNodes _)
      have hrem : emptyTagRemovable (.mk tg a x cs) = false := by
        rw [emptyTagRemovable]
        rw [Bool.or_eq_true, Bool.or_eq_true] at hself
        rcases hself with h1 | h1
        · rcases h1 with h2 | h2
          · have : ¬ (getText (.mk tg a x cs) = []) := by simpa using h2
            simp [this]
          · simp [h2]
        · simp [h1]
      rw [hrem]
      simp

theorem remove_empty_tags_id (t : HtmlNode) (h : noEmptyDescendants t = true) :
    remove_empty_tags t = t := by
  cases t with
  | mk tg a x cs =>
    rw [remove_empty_tags]
    have hlist : ∀ ds, (∀ c ∈ ds, c ∈ cs) → retList ds = ds := by
      intro ds
      induction ds with
      | nil => intro _; rfl
      | cons c rest ihl =>
        intro hds
        have hc : c ∈ cs := hds c (List.mem_cons_self _ _)
        have hsub : ∀ m ∈ iterNodes c,
            (getText m ≠ [] || hasTagInside ("object".data) m ||
              hasTagInside ("embed".data) m) = true := by
          intro m hm
          refine (List.all_eq_true.mp h) m ?_
          exact (mem_iterList m cs).mpr ⟨c, hc, hm⟩
        rw [retList, retNode_id c hsub,
          ihl (fun d hd => hds d (List.mem_cons_of_mem _ hd))]
    rw [hlist cs (fun c hc => hc)]

theorem remove_trailing_id (t : HtmlNode) (h : noTrailingTrim t = true) :
    remove_trailing_media_div t = t := by
  rw [remove_trailing_media_div]
  by_cases hlen : t.children.length < 3
  · simp [hlen]
  · rw [noTrailingTrim] at h
    rw [Bool.or_eq_true] at h
    rcases h with h1 | h1
    · exact absurd (by simpa using h1) hlen
    · cases hlast : t.children.getLast? with
      | none => simp [hlen, hlast]
      | some l =>
        rw [hlast] at h1
        have hd : ¬ 2 ≤ get_depth l 1 := by
          have : get_depth l 1 < 2 := by simpa using h1
          omega
        simp [hlen, hlast, hd]

theorem noTagsIn_mono (tags1 tags2 : List Str) (t : HtmlNode)
    (h : noTagsIn tags1 t = true) (hs : ∀ s ∈ tags2, s ∈ tags1) :
    noTagsIn tags2 t = true := by
  rw [noTagsIn, List.all_eq_true]
  intro m hm
  have := (List.all_eq_true.mp h) m hm
  simp only [Bool.not_eq_true'] at this ⊢
  simp only [decide_eq_false_iff_not] at this ⊢
  intro hmem
  exact this (hs m.tag hmem)

/-- C4 counterexample: running the pipeline a second time on the
already-cleaned tree rewrites text — list-item normalization appends a
second newline marker to the first list item (its text changes from
"A" plus marker to "A" plus two markers). -/
theorem c4_counterexample :
    cleanup_pipeline topWithList = .ok cleanedTopWithList ∧
    (cleanup_pipeline cleanedTopWithList).toOption.bind
        (fun t2 => (getPath t2 [1, 0]).map HtmlNode.text) ≠
      (getPath cleanedTopWithList [1, 0]).map HtmlNode.text :=
  ⟨rfl, by decide⟩

/-- C4 amended: a second run is not in general a no-op — it appends a
further newline marker to every non-final list item, and can trim one
more trailing deep child.  The pipeline performs no mutation on any
tree cleaned in the stronger sense (a sufficient set of conditions,
not a necessary one): every gravityScore value parses to at least 1,
no anchor/inline/br/sup element occurs, no list container holds two or
more items, every descendant has accumulated text or an object/embed
descendant, and the trailing trim condition does not fire. -/
theorem c4_pipeline_no_mutation (t : HtmlNode)
    (hscores : scoresOk t = true)
    (htags : noTagsIn ["a".data, "b".data, "strong".data, "i".data,
      "br".data, "sup".data] t = true)
    (hlists : listsSmall t = true)
    (hempty : noEmptyDescendants t = true)
    (htrail : noTrailingTrim t = true) :
    cleanup_pipeline t = .ok t := by
  have h1 : links_to_text t = t := by
    rw [links_to_text]
    refine stripNode_id _ t (noTagsIn_mono _ _ t htags ?_)
    intro s hs
    rw [List.mem_singleton] at hs
    subst hs
    decide
  have h2 : add_newline_to_br t = t := by
    refine add_newline_to_br_id t (noTagsIn_mono _ _ t htags ?_)
    intro s hs
    rw [List.mem_singleton] at hs
    subst hs
    decide
  have h3 : add_newline_to_li t = t := add_newline_to_li_id t hlists
  have h4 : replace_with_text t = t := by
    rw [replace_with_text]
    refine stripNode_id _ t (noTagsIn_mono _ _ t htags ?_)
    intro s hs
    simp only [List.mem_cons, List.not_mem_nil, or_false] at hs
    rcases hs with rfl | rfl | rfl | rfl | rfl <;> decide
  have h5 : remove_empty_tags t = t := remove_empty_tags_id t hempty
  have h6 : remove_trailing_media_div t = t := remove_trailing_id t htrail
  have hrest : cleanup_rest t = t := by
    rw [cleanup_rest, h1, h2, h3, h4, h5, h6]
  rw [cleanup_pipeline, remove_negativescores_id t hscores]
  simp only [Except.map]
  rw [hrest]

/-- A tree that is cleaned in the stronger sense of the amended C4. -/
def simpleCleanTree : HtmlNode :=
  .mk ("div".data) [] []
    [.mk ("p".data) [] ("hello world".data) [],
     .mk ("p".data) [] ("more text here".data) []]

/-- C4 witness: the amended theorem at a concrete strongly-cleaned
tree. -/
theorem c4_witness :
    scoresOk simpleCleanTree = true ∧
    cleanup_pipeline simpleCleanTree = .ok simpleCleanTree :=
  ⟨by decide,
   c4_pipeline_no_mutation simpleCleanTree (by decide) (by decide) (by decide)
     (by decide) (by decide)⟩
